import Mathlib

/-!
Verification development for the loop-transformation engine
(`loki/transform/transform_loop.py`): polyhedral model (Fourier-Motzkin
elimination), bound synthesis, loop fusion/fission/interchange drivers,
variable promotion and section hoisting.
-/

namespace LoopTransform

/-! ## Polyhedron and Fourier-Motzkin elimination

A polyhedron is stored as rows of an integer system `A x <= b`
(`Polyhedron.__init__`).  Points are rational vectors: the source docstring
models `P = { x in R^d | Ax <= b }`.  `eliminate_variable` mirrors the source
including its preallocation of the output matrix with the *input* shape
(`A = np.zeros(polyhedron.A.shape)`): when the number of produced constraints
exceeds the input row count the write `A[next_constraint,:]` is out of bounds
and the function raises, modelled as `Except.error "IndexError"`. -/

/-- One inequality row: coefficient vector and right-hand side. -/
abbrev PolyRow (d : ℕ) := (Fin d → ℤ) × ℤ

/-- Halfspace representation of a polyhedron over `d` variables. -/
structure Polyhedron (d : ℕ) where
  rows : List (PolyRow d)

/-- A rational point satisfies a list of rows when each inequality holds. -/
def satRows {d : ℕ} (rows : List (PolyRow d)) (x : Fin d → ℚ) : Prop :=
  ∀ r ∈ rows, (∑ k, (r.1 k : ℚ) * x k) ≤ (r.2 : ℚ)

/-- A rational point satisfies the polyhedron `Ax <= b`. -/
def Polyhedron.sat {d : ℕ} (P : Polyhedron d) (x : Fin d → ℚ) : Prop :=
  satRows P.rows x

/-- Delete column `j` from a row whose `j` coefficient is zero
(the `np.delete(A, j, axis=1)` step applied to a `Z` row). -/
def dropColumn {d : ℕ} (j : Fin (d + 1)) (r : PolyRow (d + 1)) : PolyRow d :=
  (fun k => r.1 (j.succAbove k), r.2)

/-- Combine a lower-bound row `l` and an upper-bound row `u` into the new row
`A[u,j]*A[l,:] - A[l,j]*A[u,:]` with rhs `A[u,j]*b[l] - A[l,j]*b[u]`,
with column `j` deleted. -/
def combineRows {d : ℕ} (j : Fin (d + 1)) (l u : PolyRow (d + 1)) : PolyRow d :=
  (fun k => u.1 j * l.1 (j.succAbove k) - l.1 j * u.1 (j.succAbove k),
   u.1 j * l.2 - l.1 j * u.2)

/-- Rows with negative coefficient on column `j` (lower bounds `L`). -/
def lowerRows {d : ℕ} (P : Polyhedron (d + 1)) (j : Fin (d + 1)) : List (PolyRow (d + 1)) :=
  P.rows.filter (fun r => r.1 j < 0)

/-- Rows with positive coefficient on column `j` (upper bounds `U`). -/
def upperRows {d : ℕ} (P : Polyhedron (d + 1)) (j : Fin (d + 1)) : List (PolyRow (d + 1)) :=
  P.rows.filter (fun r => 0 < r.1 j)

/-- Rows not involving column `j` (the `Z` set), in original order. -/
def zeroRows {d : ℕ} (P : Polyhedron (d + 1)) (j : Fin (d + 1)) : List (PolyRow (d + 1)) :=
  P.rows.filter (fun r => r.1 j = 0)

/-- The constraint rows produced by Fourier-Motzkin elimination of column `j`:
the `Z` rows unchanged followed by one row per pair `(l, u) ∈ L × U`
(`l` outer loop, `u` inner loop, as in the source). -/
def elimRows {d : ℕ} (P : Polyhedron (d + 1)) (j : Fin (d + 1)) : List (PolyRow d) :=
  (zeroRows P j).map (dropColumn j) ++
    ((lowerRows P j).flatMap (fun l => (upperRows P j).map (fun u => (l, u)))).map
      (fun lu => combineRows j lu.1 lu.2)

/-- `eliminate_variable(polyhedron, j)`: Fourier-Motzkin elimination of
column `j`.  The source preallocates the output matrix with the input's shape,
so producing more rows than the input has raises an `IndexError` instead of
returning the enlarged system. -/
def eliminate_variable {d : ℕ} (P : Polyhedron (d + 1)) (j : Fin (d + 1)) :
    Except String (Polyhedron d) :=
  if (elimRows P j).length ≤ P.rows.length then
    Except.ok ⟨elimRows P j⟩
  else
    Except.error "IndexError"

/-- Contribution of the non-`j` columns of row `r` at a projected point `y`. -/
def rowRest {d : ℕ} (j : Fin (d + 1)) (r : PolyRow (d + 1)) (y : Fin d → ℚ) : ℚ :=
  ∑ k, (r.1 (j.succAbove k) : ℚ) * y k

/-- The isolated bound value imposed on variable `j` by row `r` at point `y`:
`(b_r - rest) / A_rj` (a lower bound when `A_rj < 0`, an upper bound when
`A_rj > 0`). -/
def boundVal {d : ℕ} (j : Fin (d + 1)) (r : PolyRow (d + 1)) (y : Fin d → ℚ) : ℚ :=
  ((r.2 : ℚ) - rowRest j r y) / (r.1 j : ℚ)

theorem sum_row_split {d : ℕ} (j : Fin (d + 1)) (r : PolyRow (d + 1)) (x : Fin (d + 1) → ℚ) :
    (∑ i, (r.1 i : ℚ) * x i)
      = (r.1 j : ℚ) * x j + rowRest j r (fun k => x (j.succAbove k)) :=
  Fin.sum_univ_succAbove (fun i => (r.1 i : ℚ) * x i) j

theorem sum_row_split_insertNth {d : ℕ} (j : Fin (d + 1)) (r : PolyRow (d + 1)) (t : ℚ)
    (y : Fin d → ℚ) :
    (∑ i, (r.1 i : ℚ) * (Fin.insertNth j t y : Fin (d + 1) → ℚ) i)
      = (r.1 j : ℚ) * t + rowRest j r y := by
  rw [sum_row_split j r (Fin.insertNth j t y), Fin.insertNth_apply_same]
  congr 1
  unfold rowRest
  exact Finset.sum_congr rfl (fun k _ => by simp [Fin.insertNth_apply_succAbove])

theorem combineRows_eval {d : ℕ} (j : Fin (d + 1)) (l u : PolyRow (d + 1)) (y : Fin d → ℚ) :
    (∑ k, ((combineRows j l u).1 k : ℚ) * y k)
      = (u.1 j : ℚ) * rowRest j l y - (l.1 j : ℚ) * rowRest j u y := by
  simp only [combineRows, rowRest]
  rw [Finset.mul_sum, Finset.mul_sum, ← Finset.sum_sub_distrib]
  refine Finset.sum_congr rfl (fun k _ => ?_)
  push_cast
  ring

theorem mem_elimRows_zero {d : ℕ} {P : Polyhedron (d + 1)} {j : Fin (d + 1)}
    {r : PolyRow (d + 1)} (hr : r ∈ zeroRows P j) : dropColumn j r ∈ elimRows P j :=
  List.mem_append.mpr (Or.inl (List.mem_map_of_mem (dropColumn j) hr))

theorem mem_elimRows_pair {d : ℕ} {P : Polyhedron (d + 1)} {j : Fin (d + 1)}
    {l u : PolyRow (d + 1)} (hl : l ∈ lowerRows P j) (hu : u ∈ upperRows P j) :
    combineRows j l u ∈ elimRows P j := by
  refine List.mem_append.mpr (Or.inr ?_)
  refine List.mem_map.mpr ⟨(l, u), ?_, rfl⟩
  exact List.mem_flatMap.mpr ⟨l, hl, List.mem_map_of_mem _ hu⟩

/-- Soundness of one Fourier-Motzkin step: any rational point of `P`, with
coordinate `j` dropped, satisfies every produced constraint. -/
theorem satRows_elimRows_of_sat {d : ℕ} (P : Polyhedron (d + 1)) (j : Fin (d + 1))
    (x : Fin (d + 1) → ℚ) (hx : P.sat x) :
    satRows (elimRows P j) (fun k => x (j.succAbove k)) := by
  intro r hr
  rcases List.mem_append.mp hr with hz | hp
  · obtain ⟨z, hzmem, rfl⟩ := List.mem_map.mp hz
    have hz0 : z.1 j = 0 := by simpa using (List.mem_filter.mp hzmem).2
    have hfull := hx z (List.mem_filter.mp hzmem).1
    rw [sum_row_split j z x, hz0] at hfull
    simpa [dropColumn, rowRest] using hfull
  · obtain ⟨lu, hlumem, rfl⟩ := List.mem_map.mp hp
    obtain ⟨l, hl, hmem⟩ := List.mem_flatMap.mp hlumem
    obtain ⟨u, hu, rfl⟩ := List.mem_map.mp hmem
    have hlneg : l.1 j < 0 := by simpa using (List.mem_filter.mp hl).2
    have hupos : 0 < u.1 j := by simpa using (List.mem_filter.mp hu).2
    have hfl := hx l (List.mem_filter.mp hl).1
    have hfu := hx u (List.mem_filter.mp hu).1
    rw [sum_row_split j l x] at hfl
    rw [sum_row_split j u x] at hfu
    rw [combineRows_eval]
    have hq1 : (0 : ℚ) < (u.1 j : ℚ) := by exact_mod_cast hupos
    have hq2 : ((l.1 j : ℤ) : ℚ) < 0 := by exact_mod_cast hlneg
    have h1 := mul_le_mul_of_nonneg_left hfl hq1.le
    have h2 := mul_le_mul_of_nonneg_left hfu (by linarith : (0 : ℚ) ≤ -(l.1 j : ℚ))
    simp only [combineRows]
    push_cast
    nlinarith [h1, h2]

theorem le_foldr_max (a : ℚ) (as : List ℚ) : ∀ x ∈ a :: as, x ≤ as.foldr max a := by
  induction as with
  | nil => intro x hx; simp at hx; simp [hx]
  | cons c cs ih =>
    intro x hx
    rw [List.foldr_cons]
    rcases List.mem_cons.mp hx with rfl | hx2
    · exact le_trans (ih x (List.mem_cons_self x cs)) (le_max_right _ _)
    · rcases List.mem_cons.mp hx2 with rfl | hx3
      · exact le_max_left _ _
      · exact le_trans (ih x (List.mem_cons_of_mem _ hx3)) (le_max_right _ _)

theorem foldr_max_le {b : ℚ} (a : ℚ) (as : List ℚ) (h : ∀ x ∈ a :: as, x ≤ b) :
    as.foldr max a ≤ b := by
  induction as with
  | nil => exact h a (List.mem_cons_self a [])
  | cons c cs ih =>
    rw [List.foldr_cons]
    refine max_le (h c (by simp)) (ih ?_)
    intro x hx
    rcases List.mem_cons.mp hx with rfl | hx2
    · exact h x (by simp)
    · exact h x (by simp [hx2])

theorem foldr_min_le_mem (b : ℚ) (bs : List ℚ) : ∀ y ∈ b :: bs, bs.foldr min b ≤ y := by
  induction bs with
  | nil => intro y hy; simp at hy; simp [hy]
  | cons c cs ih =>
    intro y hy
    rw [List.foldr_cons]
    rcases List.mem_cons.mp hy with rfl | hy2
    · exact le_trans (min_le_right _ _) (ih y (List.mem_cons_self y cs))
    · rcases List.mem_cons.mp hy2 with rfl | hy3
      · exact min_le_left _ _
      · exact le_trans (min_le_right _ _) (ih y (List.mem_cons_of_mem _ hy3))

/-- Between two finite families with all cross inequalities there is a
separating rational value. -/
theorem exists_sep (xs ys : List ℚ) (h : ∀ a ∈ xs, ∀ b ∈ ys, a ≤ b) :
    ∃ t : ℚ, (∀ a ∈ xs, a ≤ t) ∧ (∀ b ∈ ys, t ≤ b) := by
  match xs, ys with
  | [], [] => exact ⟨0, by simp, by simp⟩
  | [], b :: bs => exact ⟨bs.foldr min b, by simp, foldr_min_le_mem b bs⟩
  | a :: as, ys =>
    refine ⟨as.foldr max a, le_foldr_max a as, ?_⟩
    intro b hb
    exact foldr_max_le a as (fun x hx => h x hx b hb)

theorem boundVal_le {d : ℕ} {P : Polyhedron (d + 1)} {j : Fin (d + 1)} {y : Fin d → ℚ}
    (hy : satRows (elimRows P j) y) {l u : PolyRow (d + 1)}
    (hl : l ∈ lowerRows P j) (hu : u ∈ upperRows P j) :
    boundVal j l y ≤ boundVal j u y := by
  have hcomb := hy _ (mem_elimRows_pair hl hu)
  rw [combineRows_eval] at hcomb
  have hlneg : l.1 j < 0 := by simpa using (List.mem_filter.mp hl).2
  have hupos : 0 < u.1 j := by simpa using (List.mem_filter.mp hu).2
  have hq1 : (0 : ℚ) < (u.1 j : ℚ) := by exact_mod_cast hupos
  have hq2 : ((l.1 j : ℤ) : ℚ) < 0 := by exact_mod_cast hlneg
  rw [boundVal, boundVal, le_div_iff₀ hq1, div_mul_eq_mul_div, div_le_iff_of_neg hq2]
  simp only [combineRows] at hcomb
  push_cast at hcomb
  nlinarith [hcomb]

theorem row_sat_of_lower {d : ℕ} {j : Fin (d + 1)} {l : PolyRow (d + 1)} (hl : l.1 j < 0)
    {y : Fin d → ℚ} {t : ℚ} (h : boundVal j l y ≤ t) :
    (l.1 j : ℚ) * t + rowRest j l y ≤ (l.2 : ℚ) := by
  have hq : ((l.1 j : ℤ) : ℚ) < 0 := by exact_mod_cast hl
  rw [boundVal, div_le_iff_of_neg hq] at h
  nlinarith [h]

theorem row_sat_of_upper {d : ℕ} {j : Fin (d + 1)} {u : PolyRow (d + 1)} (hu : 0 < u.1 j)
    {y : Fin d → ℚ} {t : ℚ} (h : t ≤ boundVal j u y) :
    (u.1 j : ℚ) * t + rowRest j u y ≤ (u.2 : ℚ) := by
  have hq : (0 : ℚ) < ((u.1 j : ℤ) : ℚ) := by exact_mod_cast hu
  rw [boundVal, le_div_iff₀ hq] at h
  nlinarith [h]

/-- Completeness of one Fourier-Motzkin step: any rational point of the
produced system extends, by some value of coordinate `j`, to a point of `P`. -/
theorem sat_insertNth_of_satRows_elim {d : ℕ} (P : Polyhedron (d + 1)) (j : Fin (d + 1))
    (y : Fin d → ℚ) (hy : satRows (elimRows P j) y) :
    ∃ t : ℚ, P.sat (Fin.insertNth j t y) := by
  obtain ⟨t, hlo, hhi⟩ := exists_sep ((lowerRows P j).map (fun l => boundVal j l y))
      ((upperRows P j).map (fun u => boundVal j u y)) (by
        intro a ha b hb
        obtain ⟨l, hl, rfl⟩ := List.mem_map.mp ha
        obtain ⟨u, hu, rfl⟩ := List.mem_map.mp hb
        exact boundVal_le hy hl hu)
  refine ⟨t, ?_⟩
  intro r hr
  rw [sum_row_split_insertNth j r t y]
  rcases lt_trichotomy (r.1 j) 0 with hneg | hzero | hpos
  · have hmem : r ∈ lowerRows P j := List.mem_filter.mpr ⟨hr, by simpa using hneg⟩
    exact row_sat_of_lower hneg (hlo _ (List.mem_map_of_mem _ hmem))
  · have hmem : r ∈ zeroRows P j := List.mem_filter.mpr ⟨hr, by simpa using hzero⟩
    have := hy _ (mem_elimRows_zero hmem)
    rw [hzero]
    simpa [dropColumn, rowRest] using this
  · have hmem : r ∈ upperRows P j := List.mem_filter.mpr ⟨hr, by simpa using hpos⟩
    exact row_sat_of_upper hpos (hhi _ (List.mem_map_of_mem _ hmem))

/-- C1 (amended): whenever `eliminate_variable` returns a reduced system,
that system is a sound and complete projection of `P` onto the hyperplane
without coordinate `j`, over rational points. -/
theorem eliminate_variable_sound_complete {d : ℕ} (P : Polyhedron (d + 1)) (j : Fin (d + 1))
    (Q : Polyhedron d) (h : eliminate_variable P j = Except.ok Q) :
    (∀ x : Fin (d + 1) → ℚ, P.sat x → Q.sat (fun k => x (j.succAbove k))) ∧
    (∀ y : Fin d → ℚ, Q.sat y → ∃ t : ℚ, P.sat (Fin.insertNth j t y)) := by
  have hQ : Q.rows = elimRows P j := by
    unfold eliminate_variable at h
    split at h
    · injection h with h2
      rw [← h2]
    · exact Except.noConfusion h
  constructor
  · intro x hx
    rw [Polyhedron.sat, hQ]
    exact satRows_elimRows_of_sat P j x hx
  · intro y hy
    rw [Polyhedron.sat, hQ] at hy
    exact sat_insertNth_of_satRows_elim P j y hy

/-- A polyhedron on one variable with three lower-bound rows and three
upper-bound rows (`x >= 0`, `x >= -1`, `x >= -2`, `x <= 5`, `x <= 6`,
`x <= 7`): eliminating its only variable must emit `3 * 3 = 9` rows, more
than the 6 preallocated ones. -/
def c1FailingInput : Polyhedron 1 :=
  ⟨[(fun _ => -1, 0), (fun _ => -1, 1), (fun _ => -1, 2),
    (fun _ => 1, 5), (fun _ => 1, 6), (fun _ => 1, 7)]⟩

/-- A polyhedron on one variable with two lower-bound rows and three
upper-bound rows: elimination must emit `2 * 3 = 6` rows, more than the 5
preallocated ones. -/
def c2FailingInput : Polyhedron 1 :=
  ⟨[(fun _ => -1, 0), (fun _ => -1, 1),
    (fun _ => 1, 5), (fun _ => 1, 6), (fun _ => 1, 7)]⟩

/-- C1 counterexample: `eliminate_variable` is not total, hence not a sound
and complete projection for every polyhedron and column: on a satisfiable
6-row system it raises instead of returning any projected system. -/
theorem eliminate_variable_not_total :
    ¬ ∃ Q : Polyhedron 0, eliminate_variable c1FailingInput 0 = Except.ok Q := by
  intro hex
  obtain ⟨Q, hQ⟩ := hex
  have h : eliminate_variable c1FailingInput 0 = Except.error "IndexError" := by rfl
  rw [h] at hQ
  exact Except.noConfusion hQ

/-- C2: evaluating `eliminate_variable` at a polyhedron whose elimination
produces `|Z| + |L|*|U| = 6` rows from 5 input rows: the preallocated output
buffer (`np.zeros(polyhedron.A.shape)`) overflows and the function raises
`IndexError` instead of returning the 6-row system the claim describes. -/
theorem eliminate_variable_overflow_eval :
    eliminate_variable c2FailingInput 0 = Except.error "IndexError" := by rfl

/-- The polyhedron `x >= 1` used as a witness input (its elimination
succeeds and yields the empty system). -/
def c1WitnessInput : Polyhedron 1 := ⟨[(fun _ => (-1 : ℤ), -1)]⟩

/-- Witness for C1: applying the soundness+completeness theorem at a
concrete polyhedron where elimination succeeds. -/
theorem eliminate_variable_sound_complete_witness :
    ∃ t : ℚ, c1WitnessInput.sat (Fin.insertNth 0 t (fun _ => 0)) := by
  have h : eliminate_variable c1WitnessInput 0 = Except.ok ⟨elimRows c1WitnessInput 0⟩ := by
    rfl
  refine (eliminate_variable_sound_complete c1WitnessInput 0 _ h).2 (fun _ => 0) ?_
  intro r hr
  rw [show elimRows c1WitnessInput 0 = [] from rfl] at hr
  exact absurd hr (List.not_mem_nil r)

/-! ## Affine bound expressions, the fusion merge policy, bound synthesis

`loop_fusion` and `loop_interchange` manipulate bound expressions through the
external symbolic-algebra collaborator (`simplify`, `is_constant`,
`symbolic_op`), which the spec declares out of scope.  Bounds delivered by
`Polyhedron.lower_bounds`/`upper_bounds` are simplified affine forms. -/

/-- Modelled from the spec: a canonical affine bound expression `c + a * n`
over one symbolic parameter `n` (the normal form produced by the symbolic
algebra collaborator; `simplify` of a difference subtracts componentwise and
`is_constant` tests the linear coefficient).  Component `.1` is the constant
term, component `.2` the coefficient of `n`. -/
abbrev AffExpr := ℤ × ℤ

/-- The collaborator test `is_constant`. -/
def AffExpr.isConst (e : AffExpr) : Bool := e.2 = 0

/-- The simplified difference `simplify(bound - b)`. -/
def AffExpr.sub (e f : AffExpr) : AffExpr := (e.1 - f.1, e.2 - f.2)

/-- Value of the bound at integer valuation `n` of the symbolic parameter. -/
def AffExpr.eval (e : AffExpr) (n : ℤ) : ℤ := e.1 + e.2 * n

/-- One step of the fusion lower-bound merge: the body of the loop
`for bound in p.lower_bounds(level, ignored_variables)` in `loop_fusion`.
`diff`, `is_any_negative`, `is_any_not_negative` and `is_new_bound` follow
the source line by line; when the candidate is accepted, accumulated bounds
it makes redundant are filtered out and the candidate is appended. -/
def merge_lower_bound (lower_bounds : List AffExpr) (bound : AffExpr) : List AffExpr :=
  let diff := lower_bounds.map (fun b => bound.sub b)
  let is_any_negative := diff.any (fun d => d.isConst && decide (d.1 < 0))
  let is_any_not_negative := diff.any (fun d => d.isConst && decide (0 ≤ d.1))
  let is_new_bound := lower_bounds.isEmpty || is_any_negative ||
    (!bound.isConst && !is_any_not_negative)
  if is_new_bound then
    ((lower_bounds.zip diff).filter (fun bd => !(bd.2.isConst && decide (bd.2.1 < 0)))).map
        Prod.fst
      ++ [bound]
  else
    lower_bounds

/-- One step of the fusion upper-bound merge, mirroring the source. -/
def merge_upper_bound (upper_bounds : List AffExpr) (bound : AffExpr) : List AffExpr :=
  let diff := upper_bounds.map (fun b => bound.sub b)
  let is_any_positive := diff.any (fun d => d.isConst && decide (0 < d.1))
  let is_any_not_positive := diff.any (fun d => d.isConst && decide (d.1 ≤ 0))
  let is_new_bound := upper_bounds.isEmpty || is_any_positive ||
    (!bound.isConst && !is_any_not_positive)
  if is_new_bound then
    ((upper_bounds.zip diff).filter (fun bd => !(bd.2.isConst && decide (0 < bd.2.1)))).map
        Prod.fst
      ++ [bound]
  else
    upper_bounds

/-- The acceptance condition of the lower-bound merge step, as a proposition:
the accumulated set is empty, or the candidate is smaller than some existing
bound by a provably-constant amount, or the candidate is non-constant and no
existing bound is provably not-looser. -/
def NewLowerBound (lower_bounds : List AffExpr) (bound : AffExpr) : Prop :=
  lower_bounds = [] ∨
    (∃ b ∈ lower_bounds, (bound.sub b).isConst = true ∧ (bound.sub b).1 < 0) ∨
    (bound.isConst = false ∧
      ¬ ∃ b ∈ lower_bounds, (bound.sub b).isConst = true ∧ 0 ≤ (bound.sub b).1)

theorem zip_sub_filter_fst (xs : List AffExpr) (bound : AffExpr) :
    ((xs.zip (xs.map (fun b => bound.sub b))).filter
        (fun bd => !(bd.2.isConst && decide (bd.2.1 < 0)))).map Prod.fst
      = xs.filter (fun b => !((bound.sub b).isConst && decide ((bound.sub b).1 < 0))) := by
  induction xs with
  | nil => rfl
  | cons x xs ih =>
    rw [List.map_cons, List.zip_cons_cons, List.filter_cons, List.filter_cons]
    by_cases hb : (!((bound.sub x).isConst && decide ((bound.sub x).1 < 0))) = true
    · rw [if_pos hb, if_pos hb, List.map_cons, ih]
    · rw [if_neg hb, if_neg hb, ih]

/-- C6 (amended): the candidate is incorporated, replacing exactly those
accumulated bounds it provably supersedes, if and only if the acceptance
condition holds; in every other case the candidate is dropped and the
accumulated set is returned unchanged. -/
theorem merge_lower_bound_policy (lower_bounds : List AffExpr) (bound : AffExpr) :
    (NewLowerBound lower_bounds bound →
      merge_lower_bound lower_bounds bound
        = (lower_bounds.filter
            (fun b => !((bound.sub b).isConst && decide ((bound.sub b).1 < 0)))) ++ [bound]) ∧
    (¬ NewLowerBound lower_bounds bound →
      merge_lower_bound lower_bounds bound = lower_bounds) := by
  have hiff : ((lower_bounds.isEmpty
      || (lower_bounds.map (fun b => bound.sub b)).any
           (fun d => d.isConst && decide (d.1 < 0))
      || (!bound.isConst
          && !(lower_bounds.map (fun b => bound.sub b)).any
               (fun d => d.isConst && decide (0 ≤ d.1)))) = true)
      ↔ NewLowerBound lower_bounds bound := by
    simp [NewLowerBound, List.isEmpty_iff, List.any_eq_true, Bool.and_eq_true,
      Bool.or_eq_true, decide_eq_true_eq, Bool.not_eq_true', List.any_map,
      Function.comp, Bool.not_eq_true]
    exact or_assoc
  constructor
  · intro h
    rw [merge_lower_bound, if_pos (hiff.mpr h), zip_sub_filter_fst]
  · intro h
    rw [merge_lower_bound, if_neg ?hneg]
    case hneg =>
      intro hcond
      exact h (hiff.mp hcond)

/-- C6 counterexample: with accumulated lower bounds `[3]` and constant
candidate `5` the acceptance condition fails (`5 - 3 = 2` is constant and
not negative, and `5` is constant), so the candidate is silently dropped
rather than added alongside the existing bounds. -/
theorem merge_lower_bound_drops_candidate :
    merge_lower_bound [((3 : ℤ), (0 : ℤ))] (5, 0) = [(3, 0)] ∧
      ((5 : ℤ), (0 : ℤ)) ∉ merge_lower_bound [((3 : ℤ), (0 : ℤ))] (5, 0) := by
  constructor
  · rfl
  · decide

/-- Witness for the merge-policy theorem: constant candidate `1` against
accumulated `[3]` is accepted and supersedes `3`. -/
theorem merge_lower_bound_policy_witness :
    merge_lower_bound [((3 : ℤ), (0 : ℤ))] (1, 0) = [(1, 0)] := by
  have h := (merge_lower_bound_policy [((3 : ℤ), (0 : ℤ))] (1, 0)).1
    (Or.inr (Or.inl ⟨(3, 0), by decide, by decide, by decide⟩))
  exact h.trans (by decide)

/-- A synthesized loop-bound expression: either a single candidate used as
is, or an `InlineCall` to a named intrinsic over all candidates. -/
inductive BExpr
  | single (e : AffExpr)
  | call (f : String) (args : List AffExpr)
deriving DecidableEq

/-- Bound synthesis for projected lower bounds in `loop_interchange`: a
single candidate is used as is, otherwise a `max(...)` call is built. -/
def interchange_lower_bounds_synth : List AffExpr → BExpr
  | [b] => BExpr.single b
  | bs => BExpr.call "max" bs

/-- Bound synthesis for projected upper bounds in `loop_interchange`. -/
def interchange_upper_bounds_synth : List AffExpr → BExpr
  | [b] => BExpr.single b
  | bs => BExpr.call "min" bs

/-- Bound synthesis for the fused lower bound in `loop_fusion`: a single
candidate is used as is, otherwise a `min(...)` call is built. -/
def fusion_lower_bounds_synth : List AffExpr → BExpr
  | [b] => BExpr.single b
  | bs => BExpr.call "min" bs

/-- Bound synthesis for the fused upper bound in `loop_fusion`. -/
def fusion_upper_bounds_synth : List AffExpr → BExpr
  | [b] => BExpr.single b
  | bs => BExpr.call "max" bs

/-- C5 counterexample: in fusion bound synthesis two candidate lower bounds
produce a `min(...)` call, not the `max(...)` call the claim demands. -/
theorem fusion_lower_synth_is_min_call :
    fusion_lower_bounds_synth [((1 : ℤ), (0 : ℤ)), (3, 0)]
        = BExpr.call "min" [(1, 0), (3, 0)] ∧
      fusion_lower_bounds_synth [((1 : ℤ), (0 : ℤ)), (3, 0)]
        ≠ BExpr.call "max" [(1, 0), (3, 0)] := by
  constructor
  · rfl
  · decide

/-- C5 (amended): a single candidate bound is returned as is by all four
synthesizers; with two or more candidates, interchange wraps lower bounds in
`max(...)` and upper bounds in `min(...)`, while fusion wraps lower bounds
in `min(...)` and upper bounds in `max(...)`. -/
theorem bounds_synth_spec (bs : List AffExpr) :
    (∀ b : AffExpr, bs = [b] →
      interchange_lower_bounds_synth bs = BExpr.single b ∧
      interchange_upper_bounds_synth bs = BExpr.single b ∧
      fusion_lower_bounds_synth bs = BExpr.single b ∧
      fusion_upper_bounds_synth bs = BExpr.single b) ∧
    (2 ≤ bs.length →
      interchange_lower_bounds_synth bs = BExpr.call "max" bs ∧
      interchange_upper_bounds_synth bs = BExpr.call "min" bs ∧
      fusion_lower_bounds_synth bs = BExpr.call "min" bs ∧
      fusion_upper_bounds_synth bs = BExpr.call "max" bs) := by
  constructor
  · rintro b rfl
    exact ⟨rfl, rfl, rfl, rfl⟩
  · intro h
    match bs, h with
    | b1 :: b2 :: rest, _ => exact ⟨rfl, rfl, rfl, rfl⟩

/-- Witness for the synthesis theorem at two concrete candidates. -/
theorem bounds_synth_spec_witness :
    interchange_lower_bounds_synth [((1 : ℤ), (0 : ℤ)), (3, 0)]
      = BExpr.call "max" [(1, 0), (3, 0)] :=
  ((bounds_synth_spec [(1, 0), (3, 0)]).2 (by decide)).1

/-! ## Loop fusion: fused range synthesis and body guards (collapse depth 1) -/

/-- One member loop of a fusion group at collapse depth 1: loop variable,
lower/upper bound expressions and body statement identifiers. -/
structure FuseLoop where
  var : String
  lo : AffExpr
  hi : AffExpr
  body : List ℕ
deriving DecidableEq

/-- Candidate lower bounds of the fused iteration space: each member
contributes the lower bound isolated from its iteration-space polyhedron,
folded through the merge policy in member order. -/
def fusionLowerCands (ms : List FuseLoop) : List AffExpr :=
  ms.foldl (fun acc m => merge_lower_bound acc m.lo) []

/-- Candidate upper bounds of the fused iteration space. -/
def fusionUpperCands (ms : List FuseLoop) : List AffExpr :=
  ms.foldl (fun acc m => merge_upper_bound acc m.hi) []

/-- The synthesized start of the fused loop range. -/
def fusionStart (ms : List FuseLoop) : BExpr :=
  fusion_lower_bounds_synth (fusionLowerCands ms)

/-- The synthesized stop of the fused loop range. -/
def fusionStop (ms : List FuseLoop) : BExpr :=
  fusion_upper_bounds_synth (fusionUpperCands ms)

/-- Modelled from the spec: the collaborator test `symbolic_op(a, op.ne, b)`
between a member bound (a canonical affine form) and the synthesized fused
bound; two canonical forms are unequal iff they differ, and a plain affine
form is never provably equal to a `min`/`max` call. -/
def neBound (a : AffExpr) : BExpr → Bool
  | BExpr.single e => decide (a ≠ e)
  | BExpr.call _ _ => true

/-- One conjunct of the conditional `loop_fusion` wraps around a member
body: `variable >= e` or `variable <= e`. -/
inductive GuardCond
  | ge (e : AffExpr)
  | le (e : AffExpr)
deriving DecidableEq

/-- The guard conditions built for a member whose bounds differ from the
fused range (the `conditions` list in `loop_fusion`). -/
def guardConds (m : FuseLoop) (fstart fstop : BExpr) : List GuardCond :=
  (if neBound m.lo fstart then [GuardCond.ge m.lo] else []) ++
    (if neBound m.hi fstop then [GuardCond.le m.hi] else [])

/-- Evaluation of the guard conjunction at iteration value `i` and
symbolic-parameter valuation `n`. -/
def evalGuard (conds : List GuardCond) (i n : ℤ) : Bool :=
  conds.all (fun c =>
    match c with
    | GuardCond.ge e => decide (e.eval n ≤ i)
    | GuardCond.le e => decide (i ≤ e.eval n))

/-- Fold a binary operation over a list of values (empty list gives 0,
matching no occurring case). -/
def evalList (f : ℤ → ℤ → ℤ) : List ℤ → ℤ
  | [] => 0
  | [x] => x
  | x :: y :: rest => f x (evalList f (y :: rest))

/-- Value of a synthesized bound at parameter valuation `n`: `min`/`max`
calls take the corresponding extremum of their arguments. -/
def BExpr.eval (b : BExpr) (n : ℤ) : ℤ :=
  match b with
  | BExpr.single e => e.eval n
  | BExpr.call f args =>
      if f = "min" then evalList min (args.map (fun e => e.eval n))
      else if f = "max" then evalList max (args.map (fun e => e.eval n))
      else 0

theorem merge_lower_bound_const_step (a b : ℤ) :
    merge_lower_bound [(a, 0)] (b, 0) = [(min a b, 0)] := by
  by_cases hb : b - a < 0
  · have hmin : min a b = b := by omega
    simp [merge_lower_bound, AffExpr.sub, AffExpr.isConst, hb, hmin]
  · have hmin : min a b = a := by omega
    simp [merge_lower_bound, AffExpr.sub, AffExpr.isConst, hb, hmin]

theorem merge_upper_bound_const_step (a b : ℤ) :
    merge_upper_bound [(a, 0)] (b, 0) = [(max a b, 0)] := by
  by_cases hb : 0 < b - a
  · have hmax : max a b = b := by omega
    simp [merge_upper_bound, AffExpr.sub, AffExpr.isConst, hb, hmax]
  · have hmax : max a b = a := by omega
    simp [merge_upper_bound, AffExpr.sub, AffExpr.isConst, hb, hmax]

theorem foldl_merge_lower_const (ms : List FuseLoop) (a : ℤ)
    (hconst : ∀ m ∈ ms, m.lo.2 = 0) :
    ms.foldl (fun acc m => merge_lower_bound acc m.lo) [(a, 0)]
      = [((ms.map (fun m => m.lo.1)).foldl min a, 0)] := by
  induction ms generalizing a with
  | nil => rfl
  | cons m rest ih =>
    have hm : m.lo = (m.lo.1, 0) := by
      rw [← hconst m (List.mem_cons_self m rest)]
    rw [List.foldl_cons, hm, merge_lower_bound_const_step, List.map_cons, List.foldl_cons]
    exact ih (min a m.lo.1) (fun x hx => hconst x (List.mem_cons_of_mem m hx))

theorem foldl_merge_upper_const (ms : List FuseLoop) (a : ℤ)
    (hconst : ∀ m ∈ ms, m.hi.2 = 0) :
    ms.foldl (fun acc m => merge_upper_bound acc m.hi) [(a, 0)]
      = [((ms.map (fun m => m.hi.1)).foldl max a, 0)] := by
  induction ms generalizing a with
  | nil => rfl
  | cons m rest ih =>
    have hm : m.hi = (m.hi.1, 0) := by
      rw [← hconst m (List.mem_cons_self m rest)]
    rw [List.foldl_cons, hm, merge_upper_bound_const_step, List.map_cons, List.foldl_cons]
    exact ih (max a m.hi.1) (fun x hx => hconst x (List.mem_cons_of_mem m hx))

theorem fusionLowerCands_const (m0 : FuseLoop) (rest : List FuseLoop)
    (hconst : ∀ m ∈ m0 :: rest, m.lo.2 = 0) :
    fusionLowerCands (m0 :: rest)
      = [((rest.map (fun x => x.lo.1)).foldl min m0.lo.1, 0)] := by
  rw [fusionLowerCands, List.foldl_cons]
  have hm : m0.lo = (m0.lo.1, 0) := by
    rw [← hconst m0 (List.mem_cons_self m0 rest)]
  rw [hm, show merge_lower_bound [] (m0.lo.1, 0) = [(m0.lo.1, 0)] from rfl]
  exact foldl_merge_lower_const rest m0.lo.1
    (fun x hx => hconst x (List.mem_cons_of_mem m0 hx))

theorem fusionUpperCands_const (m0 : FuseLoop) (rest : List FuseLoop)
    (hconst : ∀ m ∈ m0 :: rest, m.hi.2 = 0) :
    fusionUpperCands (m0 :: rest)
      = [((rest.map (fun x => x.hi.1)).foldl max m0.hi.1, 0)] := by
  rw [fusionUpperCands, List.foldl_cons]
  have hm : m0.hi = (m0.hi.1, 0) := by
    rw [← hconst m0 (List.mem_cons_self m0 rest)]
  rw [hm, show merge_upper_bound [] (m0.hi.1, 0) = [(m0.hi.1, 0)] from rfl]
  exact foldl_merge_upper_const rest m0.hi.1
    (fun x hx => hconst x (List.mem_cons_of_mem m0 hx))

theorem foldl_min_le_init (a : ℤ) (cs : List ℤ) : cs.foldl min a ≤ a := by
  induction cs generalizing a with
  | nil => exact le_refl a
  | cons c cs ih => exact le_trans (ih (min a c)) (min_le_left a c)

theorem foldl_min_le_mem (a : ℤ) (cs : List ℤ) : ∀ c ∈ cs, cs.foldl min a ≤ c := by
  induction cs generalizing a with
  | nil => intro c hc; simp at hc
  | cons c cs ih =>
    intro x hx
    rcases List.mem_cons.mp hx with rfl | hx2
    · exact le_trans (foldl_min_le_init (min a x) cs) (min_le_right a x)
    · exact ih (min a c) x hx2

theorem foldl_max_init_le (a : ℤ) (cs : List ℤ) : a ≤ cs.foldl max a := by
  induction cs generalizing a with
  | nil => exact le_refl a
  | cons c cs ih => exact le_trans (le_max_left a c) (ih (max a c))

theorem foldl_max_mem_le (a : ℤ) (cs : List ℤ) : ∀ c ∈ cs, c ≤ cs.foldl max a := by
  induction cs generalizing a with
  | nil => intro c hc; simp at hc
  | cons c cs ih =>
    intro x hx
    rcases List.mem_cons.mp hx with rfl | hx2
    · exact le_trans (le_max_right a x) (foldl_max_init_le (max a x) cs)
    · exact ih (max a c) x hx2

/-- C4 (amended): for fusion groups all of whose member bounds are integer
constants, every member iteration lies in the synthesized fused range, and a
member's guard holds at a fused iteration exactly when that iteration lies
within the member's own bounds (so the guarded body does not execute outside
them). -/
theorem loop_fusion_superset_guard (ms : List FuseLoop) (hne : ms ≠ [])
    (hconst : ∀ m ∈ ms, m.lo.2 = 0 ∧ m.hi.2 = 0) (n : ℤ) :
    (∀ m ∈ ms, ∀ i : ℤ,
      m.lo.eval n ≤ i → i ≤ m.hi.eval n →
        (fusionStart ms).eval n ≤ i ∧ i ≤ (fusionStop ms).eval n) ∧
    (∀ m ∈ ms, ∀ i : ℤ,
      (fusionStart ms).eval n ≤ i → i ≤ (fusionStop ms).eval n →
        (evalGuard (guardConds m (fusionStart ms) (fusionStop ms)) i n = true
          ↔ (m.lo.eval n ≤ i ∧ i ≤ m.hi.eval n))) := by
  match ms, hne with
  | m0 :: rest, _ =>
  have hloC : ∀ m ∈ m0 :: rest, m.lo.2 = 0 := fun m hm => (hconst m hm).1
  have hhiC : ∀ m ∈ m0 :: rest, m.hi.2 = 0 := fun m hm => (hconst m hm).2
  have hlc := fusionLowerCands_const m0 rest hloC
  have huc := fusionUpperCands_const m0 rest hhiC
  set vlo := (rest.map (fun x => x.lo.1)).foldl min m0.lo.1 with hvlo
  set vhi := (rest.map (fun x => x.hi.1)).foldl max m0.hi.1 with hvhi
  have hstart : fusionStart (m0 :: rest) = BExpr.single (vlo, 0) := by
    rw [fusionStart, hlc]; exact rfl
  have hstop : fusionStop (m0 :: rest) = BExpr.single (vhi, 0) := by
    rw [fusionStop, huc]; exact rfl
  have hstarteval : (fusionStart (m0 :: rest)).eval n = vlo := by
    rw [hstart]; simp [BExpr.eval, AffExpr.eval]
  have hstopeval : (fusionStop (m0 :: rest)).eval n = vhi := by
    rw [hstop]; simp [BExpr.eval, AffExpr.eval]
  have hloEval : ∀ m ∈ m0 :: rest, AffExpr.eval m.lo n = m.lo.1 := by
    intro m hm; rw [AffExpr.eval, hloC m hm]; ring
  have hhiEval : ∀ m ∈ m0 :: rest, AffExpr.eval m.hi n = m.hi.1 := by
    intro m hm; rw [AffExpr.eval, hhiC m hm]; ring
  have hvloLe : ∀ m ∈ m0 :: rest, vlo ≤ m.lo.1 := by
    intro m hm
    rcases List.mem_cons.mp hm with rfl | hm2
    · exact foldl_min_le_init m.lo.1 (rest.map (fun x => x.lo.1))
    · exact foldl_min_le_mem m0.lo.1 (rest.map (fun x => x.lo.1)) m.lo.1
        (List.mem_map_of_mem (fun x => x.lo.1) hm2)
  have hvhiGe : ∀ m ∈ m0 :: rest, m.hi.1 ≤ vhi := by
    intro m hm
    rcases List.mem_cons.mp hm with rfl | hm2
    · exact foldl_max_init_le m.hi.1 (rest.map (fun x => x.hi.1))
    · exact foldl_max_mem_le m0.hi.1 (rest.map (fun x => x.hi.1)) m.hi.1
        (List.mem_map_of_mem (fun x => x.hi.1) hm2)
  constructor
  · intro m hm i hlo hhi
    rw [hstarteval, hstopeval]
    rw [hloEval m hm] at hlo
    rw [hhiEval m hm] at hhi
    exact ⟨le_trans (hvloLe m hm) hlo, le_trans hhi (hvhiGe m hm)⟩
  · intro m hm i hge hle
    rw [hstarteval] at hge
    rw [hstopeval] at hle
    rw [hstart, hstop, hloEval m hm, hhiEval m hm]
    by_cases hloEq : m.lo = (vlo, 0)
    · by_cases hhiEq : m.hi = (vhi, 0)
      · simp [guardConds, neBound, hloEq, hhiEq, evalGuard]
        exact ⟨hge, hle⟩
      · simp [guardConds, neBound, hloEq, hhiEq, evalGuard, hhiEval m hm]
        intro _
        exact hge
    · by_cases hhiEq : m.hi = (vhi, 0)
      · simp [guardConds, neBound, hloEq, hhiEq, evalGuard, hloEval m hm]
        intro _
        exact hle
      · simp [guardConds, neBound, hloEq, hhiEq, evalGuard, hloEval m hm, hhiEval m hm]

/-- A fusion member with symbolic lower bound `n` (for example
`do i=n,20`). -/
def c4Member1 : FuseLoop := ⟨"i", (0, 1), (20, 0), [1]⟩

/-- A fusion member with constant bounds `5..20`. -/
def c4Member2 : FuseLoop := ⟨"i", (5, 0), (20, 0), [2]⟩

/-- C4 counterexample: fusing `do i=n,20` with `do i=5,20` (in that order)
drops the constant candidate `5`, so the fused range starts at `n`; at
valuation `n = 10` the second member's original iteration `i = 5` lies
outside the fused range, refuting the superset claim. -/
theorem fusion_superset_fails :
    (c4Member2.lo.eval 10 ≤ 5 ∧ (5 : ℤ) ≤ c4Member2.hi.eval 10) ∧
      ¬ ((fusionStart [c4Member1, c4Member2]).eval 10 ≤ 5) := by decide

/-- The fusion member `do i=1,5`. -/
def c4ExampleA : FuseLoop := ⟨"i", (1, 0), (5, 0), [1]⟩

/-- The fusion member `do i=3,8`. -/
def c4ExampleB : FuseLoop := ⟨"i", (3, 0), (8, 0), [2]⟩

/-- Witness for the fusion superset/guard theorem at the spec's concrete
example: `do i=1,5` and `do i=3,8` fuse to `do i=1,8`, the first body is
guarded by `i<=5`, the second by `i>=3`, and the first member's guard fails
at the fused iteration `i = 6`. -/
theorem loop_fusion_superset_guard_witness :
    (fusionStart [c4ExampleA, c4ExampleB] = BExpr.single (1, 0) ∧
      fusionStop [c4ExampleA, c4ExampleB] = BExpr.single (8, 0) ∧
      guardConds c4ExampleA (fusionStart [c4ExampleA, c4ExampleB])
          (fusionStop [c4ExampleA, c4ExampleB]) = [GuardCond.le (5, 0)] ∧
      guardConds c4ExampleB (fusionStart [c4ExampleA, c4ExampleB])
          (fusionStop [c4ExampleA, c4ExampleB]) = [GuardCond.ge (3, 0)]) ∧
    ¬ (evalGuard (guardConds c4ExampleA (fusionStart [c4ExampleA, c4ExampleB])
          (fusionStop [c4ExampleA, c4ExampleB])) 6 0 = true) := by
  refine ⟨by decide, ?_⟩
  intro hguard
  have h := (loop_fusion_superset_guard [c4ExampleA, c4ExampleB]
      (by simp) (by decide) 0).2 c4ExampleA (by simp) 6 (by decide) (by decide)
  have h2 := h.mp hguard
  revert h2
  decide

/-! ## Loop fission

`FissionTransformer.visit_Loop` splits a marked loop at its `loop-fission`
pragmas: one masked traversal per window, skipping windows whose
reconstructed body is empty (`if not body: return [None]`), and emitting a
split comment before each rebuilt loop that starts at a pragma.  The
windowed (masked) traversal itself lives in the tree-substrate collaborator;
for flat loop bodies it reproduces exactly the statements strictly between
the window's markers, as the spec describes. -/

/-- A node of a flat loop body: an ordinary statement, a `loop-fission`
pragma marker, or a comment. -/
inductive FNode
  | stmt (id : ℕ)
  | fissionPragma (id : ℕ)
  | comment (id : ℕ)
deriving DecidableEq

/-- Whether a body node is a `loop-fission` pragma. -/
def FNode.isFissionMarker : FNode → Bool
  | FNode.fissionPragma _ => true
  | _ => false

/-- A loop with its variable, bounds and flat body. -/
structure FLoop where
  var : String
  lo : AffExpr
  hi : AffExpr
  body : List FNode
deriving DecidableEq

/-- An output node of the fission rewrite: a rebuilt loop or the comment
marking where the loop was split. -/
inductive FOut
  | loop (l : FLoop)
  | comment (id : ℕ)
deriving DecidableEq

/-- Modelled from the spec: splitting a flat body at its fission markers
into the window before the first marker plus one `(marker, window)` pair per
marker (the masked traversals reconstruct exactly the nodes strictly
between consecutive markers). -/
def splitBody : List FNode → List FNode × List (ℕ × List FNode)
  | [] => ([], [])
  | FNode.fissionPragma i :: rest =>
      let ps := splitBody rest
      ([], (i, ps.1) :: ps.2)
  | n :: rest =>
      let ps := splitBody rest
      (n :: ps.1, ps.2)

/-- `FissionTransformer.visit_Loop` on a marked loop: rebuild one loop per
window with the original variable and bounds; a window with an empty
reconstructed body produces nothing (neither loop nor comment); every other
window that starts at a marker is preceded by a split comment. -/
def fission_loop (l : FLoop) : List FOut :=
  let ps := splitBody l.body
  (if ps.1.isEmpty then [] else [FOut.loop ⟨l.var, l.lo, l.hi, ps.1⟩]) ++
    ps.2.flatMap (fun ic =>
      if ic.2.isEmpty then []
      else [FOut.comment ic.1, FOut.loop ⟨l.var, l.lo, l.hi, ic.2⟩])

/-- The loops among the emitted output nodes. -/
def outLoops (outs : List FOut) : List FLoop :=
  outs.flatMap (fun o =>
    match o with
    | FOut.loop l => [l]
    | FOut.comment _ => [])

/-- Concatenation, in source order, of the bodies of all emitted loops. -/
def concatBodies (outs : List FOut) : List FNode :=
  (outLoops outs).flatMap (fun l => l.body)

/-- All body windows of a loop, in source order (the window before the
first marker first). -/
def allWindows (body : List FNode) : List (List FNode) :=
  (splitBody body).1 :: (splitBody body).2.map Prod.snd

theorem splitBody_windows_concat (body : List FNode) :
    (splitBody body).1 ++ (splitBody body).2.flatMap Prod.snd
      = body.filter (fun n => !n.isFissionMarker) := by
  induction body with
  | nil => rfl
  | cons n rest ih =>
    match n with
    | FNode.fissionPragma i =>
      simp [splitBody, List.filter_cons, FNode.isFissionMarker, ih]
    | FNode.stmt i =>
      simp [splitBody, List.filter_cons, FNode.isFissionMarker, ih]
    | FNode.comment i =>
      simp [splitBody, List.filter_cons, FNode.isFissionMarker, ih]

theorem splitBody_count (body : List FNode) :
    (splitBody body).2.length = body.countP (fun n => n.isFissionMarker) := by
  induction body with
  | nil => rfl
  | cons n rest ih =>
    match n with
    | FNode.fissionPragma i => simp [splitBody, List.countP_cons, FNode.isFissionMarker, ih]
    | FNode.stmt i => simp [splitBody, List.countP_cons, FNode.isFissionMarker, ih]
    | FNode.comment i => simp [splitBody, List.countP_cons, FNode.isFissionMarker, ih]

theorem outLoops_append (a b : List FOut) : outLoops (a ++ b) = outLoops a ++ outLoops b := by
  simp [outLoops]

theorem outLoops_segments (l : FLoop) (segs : List (ℕ × List FNode)) :
    outLoops (segs.flatMap (fun ic =>
        if ic.2.isEmpty then []
        else [FOut.comment ic.1, FOut.loop ⟨l.var, l.lo, l.hi, ic.2⟩]))
      = ((segs.map Prod.snd).filter (fun w => !w.isEmpty)).map
          (fun w => (⟨l.var, l.lo, l.hi, w⟩ : FLoop)) := by
  induction segs with
  | nil => rfl
  | cons ic rest ih =>
    rw [List.flatMap_cons, outLoops_append, List.map_cons, List.filter_cons]
    by_cases h : ic.2.isEmpty
    · rw [if_pos h, ih]
      simp [h, outLoops]
    · rw [if_neg h, ih]
      simp [h, outLoops]

theorem outLoops_fission (l : FLoop) :
    outLoops (fission_loop l)
      = ((allWindows l.body).filter (fun w => !w.isEmpty)).map
          (fun w => (⟨l.var, l.lo, l.hi, w⟩ : FLoop)) := by
  simp only [fission_loop, allWindows]
  rw [outLoops_append, outLoops_segments, List.filter_cons]
  by_cases h : (splitBody l.body).1.isEmpty
  · simp [h, outLoops]
  · simp [h, outLoops]

theorem filter_nonempty_flatten (ws : List (List FNode)) :
    (ws.filter (fun w => !w.isEmpty)).flatMap (fun w => w) = ws.flatMap (fun w => w) := by
  induction ws with
  | nil => rfl
  | cons w rest ih =>
    by_cases h : w.isEmpty
    · have hw : w = [] := List.isEmpty_iff.mp h
      simp [List.filter_cons, h, hw, ih]
    · simp [List.filter_cons, h, ih]

/-- C3 (amended): fission emits one loop per nonempty window (empty windows
and their split comments are omitted), every emitted loop carries the
original variable and bounds, and concatenating the emitted bodies in source
order reproduces the original statement sequence with the markers removed;
the markers cut the body into `k + 1` windows. -/
theorem fission_loop_spec (l : FLoop) :
    (∀ lp ∈ outLoops (fission_loop l), lp.var = l.var ∧ lp.lo = l.lo ∧ lp.hi = l.hi) ∧
    concatBodies (fission_loop l) = l.body.filter (fun n => !n.isFissionMarker) ∧
    (outLoops (fission_loop l)).length
      = ((allWindows l.body).filter (fun w => !w.isEmpty)).length ∧
    (allWindows l.body).length = l.body.countP (fun n => n.isFissionMarker) + 1 := by
  refine ⟨?_, ?_, ?_, ?_⟩
  · intro lp hlp
    rw [outLoops_fission] at hlp
    obtain ⟨w, hw, rfl⟩ := List.mem_map.mp hlp
    exact ⟨rfl, rfl, rfl⟩
  · rw [concatBodies, outLoops_fission, List.flatMap_map]
    show ((allWindows l.body).filter (fun w => !w.isEmpty)).flatMap (fun w => w) = _
    rw [filter_nonempty_flatten, allWindows, List.flatMap_cons, List.flatMap_map]
    exact splitBody_windows_concat l.body
  · rw [outLoops_fission, List.length_map]
  · rw [allWindows, List.length_cons, List.length_map, splitBody_count]

/-- A loop whose body starts with a fission marker: `[pragma, stmt 1]`. -/
def c3Example : FLoop := ⟨"i", (1, 0), (2, 0), [FNode.fissionPragma 0, FNode.stmt 1]⟩

/-- C3 counterexample: a loop with `k = 1` markers at the head of the body
yields only one loop (not `k + 1 = 2`), and the concatenated bodies are the
original statements with the marker removed, not replaced by a comment. -/
theorem fission_loop_not_kplus1 :
    fission_loop c3Example
        = [FOut.comment 0, FOut.loop ⟨"i", (1, 0), (2, 0), [FNode.stmt 1]⟩] ∧
      (outLoops (fission_loop c3Example)).length = 1 ∧
      ¬ ((outLoops (fission_loop c3Example)).length
          = c3Example.body.countP (fun n => n.isFissionMarker) + 1) ∧
      concatBodies (fission_loop c3Example) = [FNode.stmt 1] ∧
      concatBodies (fission_loop c3Example) ≠ [FNode.comment 0, FNode.stmt 1] := by
  decide

/-- Witness for the fission theorem: a two-statement body split once in the
middle concatenates back to the two statements. -/
theorem fission_loop_spec_witness :
    concatBodies (fission_loop ⟨"i", (1, 0), (2, 0),
        [FNode.stmt 1, FNode.fissionPragma 0, FNode.stmt 2]⟩)
      = [FNode.stmt 1, FNode.stmt 2] := by
  have h := (fission_loop_spec ⟨"i", (1, 0), (2, 0),
      [FNode.stmt 1, FNode.fissionPragma 0, FNode.stmt 2]⟩).2.1
  rw [h]
  decide

/-! ## Loop interchange: non-affine bounds abort the whole invocation

`loop_interchange` has no exception handler: `Polyhedron.from_loop_ranges`
(via `generate_entries_for_lower_bound`) raises on a non-affine bound, and
the replacement map is applied to the routine body only after all nests have
been processed, so the first failure propagates out of the call with the
body untouched. -/

/-- A bound expression decomposed into monomials, as delivered by the
collaborator `accumulate_polynomial_terms`: each term is the list of its
base variable names with an integer coefficient (an empty base is the
constant term). -/
structure PolyBound where
  terms : List (List String × ℤ)
deriving DecidableEq

/-- The constant term of a bound (the `summands.pop(1, 0)` step). -/
def constTerm (bound : PolyBound) : ℤ :=
  (bound.terms.filter (fun t => t.1.isEmpty)).foldl (fun acc t => acc + t.2) 0

/-- The non-constant monomials of a bound. -/
def linTerms (bound : PolyBound) : List (List String × ℤ) :=
  bound.terms.filter (fun t => !t.1.isEmpty)

/-- Write value `v` at position `i` of a coefficient row. -/
def setIdx : List ℤ → ℕ → ℤ → List ℤ
  | [], _, _ => []
  | _ :: xs, 0, v => v :: xs
  | x :: xs, n + 1, v => x :: setIdx xs n v

/-- Fill the coefficient row from the non-constant monomials; a monomial
whose base is not a single variable raises `Non-affine bound`. -/
def genEntriesAux (vs : List String) :
    List (List String × ℤ) → List ℤ → Except String (List ℤ)
  | [], A => Except.ok A
  | (base, coef) :: rest, A =>
      match base with
      | [v] => genEntriesAux vs rest
          (setIdx A (vs.findIdx (fun s => s = v)) coef)
      | _ => Except.error "Non-affine bound"

/-- `Polyhedron.generate_entries_for_lower_bound`: derive the matrix row and
right-hand side entry for one affine bound, failing on non-affine input. -/
def generate_entries_for_lower_bound (bound : PolyBound) (vs : List String)
    (index : ℕ) : Except String (List ℤ × ℤ) :=
  match genEntriesAux vs (linTerms bound)
      (setIdx (List.replicate vs.length 0) index (-1)) with
  | Except.ok A => Except.ok (A, -(constTerm bound))
  | Except.error e => Except.error e

/-- A loop nest of the routine body: whether it carries the
`loop-interchange` pragma, its loop variables and its bound expressions. -/
structure Nest where
  annotated : Bool
  vars : List String
  bounds : List PolyBound
deriving DecidableEq

/-- Derive an inequality row for every bound of the nest
(`Polyhedron.from_loop_ranges`); the first non-affine bound aborts. -/
def gen_rows (vs : List String) : List PolyBound → ℕ →
    Except String (List (List ℤ × ℤ))
  | [], _ => Except.ok []
  | b :: rest, idx =>
      match generate_entries_for_lower_bound b vs idx with
      | Except.error e => Except.error e
      | Except.ok row =>
          match gen_rows vs rest (idx + 1) with
          | Except.error e => Except.error e
          | Except.ok rows => Except.ok (row :: rows)

/-- Processing one annotated nest with bound projection: build its
iteration-space polyhedron (which may raise), then rebuild the nest in the
default reversed variable order. -/
def process_nest (n : Nest) : Except String Nest :=
  match gen_rows n.vars n.bounds 0 with
  | Except.error e => Except.error e
  | Except.ok _ => Except.ok ⟨n.annotated, n.vars.reverse, n.bounds.reverse⟩

/-- `loop_interchange(routine, project_bounds=True)` over the nests of a
routine body: every annotated nest is processed while building the
replacement map, with no exception handling; the rewritten body is produced
only if every nest processed successfully. -/
def loop_interchange : List Nest → Except String (List Nest)
  | [] => Except.ok []
  | n :: rest =>
      match (if n.annotated then process_nest n else Except.ok n) with
      | Except.error e => Except.error e
      | Except.ok n2 =>
          match loop_interchange rest with
          | Except.error e => Except.error e
          | Except.ok rest2 => Except.ok (n2 :: rest2)

/-- The non-affine bound `n * n`. -/
def nonAffineBound : PolyBound := ⟨[(["n", "n"], 1)]⟩

/-- The affine (constant) bound `1`. -/
def affineBound : PolyBound := ⟨[([], 1)]⟩

/-- An annotated nest with a non-affine bound. -/
def badNest : Nest := ⟨true, ["i"], [nonAffineBound]⟩

/-- An independent annotated nest with affine bounds only. -/
def goodNest : Nest := ⟨true, ["j"], [affineBound]⟩

/-- C7 counterexample: with one bad nest and one independent good nest in
the same body, the whole invocation raises and no output body exists, so the
good nest is not transformed. -/
theorem loop_interchange_aborts_all :
    loop_interchange [badNest, goodNest] = Except.error "Non-affine bound" ∧
      ¬ ∃ out, loop_interchange [badNest, goodNest] = Except.ok out := by
  constructor
  · rfl
  · rintro ⟨out, hout⟩
    have h : loop_interchange [badNest, goodNest] = Except.error "Non-affine bound" := rfl
    rw [h] at hout
    exact Except.noConfusion hout

/-- C7 (amended): a non-affine bound in any annotated nest makes the whole
`loop_interchange` invocation fail: the error propagates out of the call and
no nest of the body -- including independent ones -- is rewritten (the body
replacement only happens after all nests processed successfully). -/
theorem loop_interchange_error_propagates (body : List Nest)
    (h : ∃ n ∈ body, n.annotated = true ∧ ∃ e, process_nest n = Except.error e) :
    ∃ e, loop_interchange body = Except.error e := by
  induction body with
  | nil =>
    obtain ⟨n, hn, _⟩ := h
    simp at hn
  | cons n rest ih =>
    obtain ⟨m, hm, hann, e, he⟩ := h
    rcases List.mem_cons.mp hm with rfl | hm2
    · refine ⟨e, ?_⟩
      simp only [loop_interchange, if_pos hann, he]
    · cases hhead : (if n.annotated = true then process_nest n else Except.ok n) with
      | error e2 =>
        refine ⟨e2, ?_⟩
        simp only [loop_interchange, hhead]
      | ok n2 =>
        obtain ⟨e3, he3⟩ := ih ⟨m, hm2, hann, e, he⟩
        refine ⟨e3, ?_⟩
        simp only [loop_interchange, hhead, he3]

/-- Witness for the propagation theorem: a single bad nest yields an
error. -/
theorem loop_interchange_error_propagates_witness :
    ∃ e, loop_interchange [badNest] = Except.error e :=
  loop_interchange_error_propagates [badNest]
    ⟨badNest, by simp, rfl, "Non-affine bound", rfl⟩

/-! ## Loop fusion: conflicting collapse values abort the invocation

In `loop_fusion` the groups are processed one after another while building
the replacement map; `routine.body` is reassigned only after the loop over
all groups, so the RuntimeError raised on a collapse conflict propagates
out of the call before any rewrite happens. -/

/-- The collapse agreement check of one fusion group
(`collapse != [collapse[0]] * len(collapse)` raises); the depth defaults to
1 when no member gives `collapse(n)`. -/
def check_collapse : List (Option ℕ) → Except String ℕ
  | [] => Except.error "empty group"
  | c :: rest =>
      if rest.all (fun x => decide (x = c)) then Except.ok (c.getD 1)
      else Except.error "Conflicting collapse values in group"

/-- Process every fusion group in order, collecting the collapse depths used
to build each group's replacement-map entry; the first conflict aborts. -/
def process_fusion_groups : List (List (Option ℕ)) → Except String (List ℕ)
  | [] => Except.ok []
  | g :: rest =>
      match check_collapse g with
      | Except.error e => Except.error e
      | Except.ok c =>
          match process_fusion_groups rest with
          | Except.error e => Except.error e
          | Except.ok cs => Except.ok (c :: cs)

/-- `loop_fusion` over the collapse parameters of its groups: all groups are
processed first; only on success is the body rewritten (modelled as
appending the fused-group depths to the body). -/
def loop_fusion_apply (groups : List (List (Option ℕ))) (body : List ℕ) :
    Except String (List ℕ) :=
  match process_fusion_groups groups with
  | Except.error e => Except.error e
  | Except.ok depths => Except.ok (body ++ depths)

theorem check_collapse_conflict (g : List (Option ℕ))
    (h : ∃ c1 ∈ g, ∃ c2 ∈ g, c1 ≠ c2) :
    check_collapse g = Except.error "Conflicting collapse values in group" := by
  match g with
  | [] =>
    obtain ⟨c1, h1, _⟩ := h
    simp at h1
  | c :: rest =>
    rw [check_collapse, if_neg ?hall]
    case hall =>
      intro hall
      have hall2 : ∀ x ∈ rest, x = c := by
        intro x hx
        have := List.all_eq_true.mp hall x hx
        simpa using this
      obtain ⟨c1, h1, c2, h2, hne⟩ := h
      have e1 : c1 = c := by
        rcases List.mem_cons.mp h1 with rfl | hm
        · rfl
        · exact hall2 c1 hm
      have e2 : c2 = c := by
        rcases List.mem_cons.mp h2 with rfl | hm
        · rfl
        · exact hall2 c2 hm
      exact hne (e1.trans e2.symm)

/-- C8: if any fusion group carries two different `collapse` values, the
whole `loop_fusion` invocation fails with the conflict error before the body
rewrite is reached: no rewritten body is produced for any group and the
routine body is left as it was. -/
theorem loop_fusion_collapse_conflict (groups : List (List (Option ℕ))) (body : List ℕ)
    (h : ∃ g ∈ groups, ∃ c1 ∈ g, ∃ c2 ∈ g, c1 ≠ c2) :
    (∃ e, loop_fusion_apply groups body = Except.error e) ∧
      ∀ out, loop_fusion_apply groups body ≠ Except.ok out := by
  have herr : ∃ e, process_fusion_groups groups = Except.error e := by
    induction groups with
    | nil =>
      obtain ⟨g, hg, _⟩ := h
      simp at hg
    | cons g rest ih =>
      obtain ⟨g2, hg2, hconf⟩ := h
      rcases List.mem_cons.mp hg2 with rfl | hm2
      · exact ⟨"Conflicting collapse values in group",
          by simp only [process_fusion_groups, check_collapse_conflict g2 hconf]⟩
      · cases hhead : check_collapse g with
        | error e2 => exact ⟨e2, by simp only [process_fusion_groups, hhead]⟩
        | ok c =>
          obtain ⟨e3, he3⟩ := ih ⟨g2, hm2, hconf⟩
          exact ⟨e3, by simp only [process_fusion_groups, hhead, he3]⟩
  obtain ⟨e, he⟩ := herr
  refine ⟨⟨e, by simp only [loop_fusion_apply, he]⟩, ?_⟩
  intro out hout
  simp only [loop_fusion_apply, he] at hout
  exact Except.noConfusion hout

/-- Witness for the collapse-conflict theorem: a conflicting group
`collapse(2)` versus `collapse(3)` aborts the call. -/
theorem loop_fusion_collapse_conflict_witness :
    ∃ e, loop_fusion_apply [[some 2, some 3]] [7] = Except.error e :=
  (loop_fusion_collapse_conflict [[some 2, some 3]] [7]
    ⟨[some 2, some 3], by simp, some 2, by simp, some 3, by simp, by simp⟩).1

/-! ## Variable promotion accumulation (`get_promotion_dimensions`) -/

/-- The accumulated promotion state: dimension sizes and index variable
names per promoted variable (`promotion_vars_dims` / `promotion_vars_index`).
Sizes are the constant loop upper bounds (`simplify(loop.bounds.stop)`)
compared through `symbolic_op(_, op.lt, _)`. -/
structure PromoState where
  dims : List (String × List ℤ)
  idxs : List (String × List String)
deriving DecidableEq

/-- Association-list lookup. -/
def lookupA {α : Type} : List (String × α) → String → Option α
  | [], _ => none
  | (k2, v) :: rest, k => if k2 = k then some v else lookupA rest k

/-- Association-list update of an existing key. -/
def updateA {α : Type} : List (String × α) → String → α → List (String × α)
  | [], _, _ => []
  | (k2, v) :: rest, k, v2 =>
      if k2 = k then (k2, v2) :: rest else (k2, v) :: updateA rest k v2

/-- Merge the recorded dims/index variables of one promoted variable with
the current loop nest: per position the new loop index must match the
recorded one (else the RuntimeError about a non-matching loop variable), and
the recorded size is raised to the new loop length when provably smaller. -/
def mergeDims : List ℤ → List String → List ℤ → List String → Except String (List ℤ)
  | [], [], [], [] => Except.ok []
  | d :: ds, ix :: ixs, l :: ls, jx :: jxs =>
      if jx ≠ ix then Except.error "Loop variable does not match previous index"
      else
        match mergeDims ds ixs ls jxs with
        | Except.error e => Except.error e
        | Except.ok rest => Except.ok ((if d < l then l else d) :: rest)
  | _, _, _, _ => Except.error "length mismatch"

/-- `get_promotion_dimensions` for a single variable named in a
`promote(...)` request: first request records the loop lengths and indices;
later requests must agree on rank (else the conflicting-promotion-dimensions
RuntimeError) and on index variables, and raise sizes elementwise. -/
def promoteVar (st : PromoState) (var : String) (loop_lengths : List ℤ)
    (loop_index : List String) : Except String PromoState :=
  match lookupA st.dims var, lookupA st.idxs var with
  | none, _ =>
      Except.ok ⟨(var, loop_lengths) :: st.dims, (var, loop_index) :: st.idxs⟩
  | some dims, some idxs =>
      if dims.length ≠ loop_lengths.length then
        Except.error "Conflicting promotion dimensions"
      else
        match mergeDims dims idxs loop_lengths loop_index with
        | Except.error e => Except.error e
        | Except.ok merged => Except.ok ⟨updateA st.dims var merged, st.idxs⟩
  | some _, none => Except.error "inconsistent promotion state"

/-- `get_promotion_dimensions`: fold all variables of one `promote(...)`
request into the accumulated state. -/
def get_promotion_dimensions (promote_vars : List String) (loop_lengths : List ℤ)
    (loop_index : List String) (st : PromoState) : Except String PromoState :=
  match promote_vars with
  | [] => Except.ok st
  | v :: rest =>
      match promoteVar st v loop_lengths loop_index with
      | Except.error e => Except.error e
      | Except.ok st2 => get_promotion_dimensions rest loop_lengths loop_index st2

theorem mergeDims_eq (ds : List ℤ) (ixs : List String) (ls : List ℤ)
    (h1 : ixs.length = ds.length) (h2 : ds.length = ls.length) :
    mergeDims ds ixs ls ixs = Except.ok (List.zipWith max ds ls) := by
  induction ds generalizing ixs ls with
  | nil =>
    match ixs, ls, h1, h2 with
    | [], [], _, _ => rfl
  | cons d ds ih =>
    match ixs, ls, h1, h2 with
    | ix :: ixs, l :: ls, h1, h2 =>
      have hmax : (if d < l then l else d) = max d l := by
        rcases lt_or_ge d l with hdl | hdl
        · simp [hdl, max_eq_right hdl.le]
        · simp [not_lt.mpr hdl, max_eq_left hdl]
      simp only [mergeDims, if_neg (by simp : ¬ ix ≠ ix),
        ih ixs ls (by simpa using h1) (by simpa using h2), hmax, List.zipWith_cons_cons]

theorem mergeDims_index_conflict (ds : List ℤ) (ixs : List String) (ls : List ℤ)
    (jxs : List String) (h1 : ixs.length = ds.length) (h2 : ds.length = ls.length)
    (h3 : jxs.length = ls.length) (hne : ixs ≠ jxs) :
    ∃ e, mergeDims ds ixs ls jxs = Except.error e := by
  induction ds generalizing ixs ls jxs with
  | nil =>
    match ixs, ls, jxs, h1, h2, h3 with
    | [], [], [], _, _, _ => exact absurd rfl hne
  | cons d ds ih =>
    match ixs, ls, jxs, h1, h2, h3 with
    | ix :: ixs, l :: ls, jx :: jxs, h1, h2, h3 =>
      by_cases hj : jx = ix
      · subst hj
        have hne2 : ixs ≠ jxs := by
          intro hc
          exact hne (by rw [hc])
        obtain ⟨e, he⟩ := ih ixs ls jxs (by simpa using h1) (by simpa using h2)
          (by simpa using h3) hne2
        exact ⟨e, by simp only [mergeDims, if_neg (by simp : ¬ jx ≠ jx), he]⟩
      · exact ⟨"Loop variable does not match previous index",
          by simp only [mergeDims, if_pos hj]⟩

/-- C9: for a variable already recorded in the promotion state, a request
with a different rank raises; same rank but a differing index variable
raises; same rank and identical index variables update the recorded sizes to
the element-wise maximum. -/
theorem promotion_conflict_spec (st : PromoState) (var : String)
    (old : List ℤ) (oldIdx : List String) (lens : List ℤ) (idx : List String)
    (hd : lookupA st.dims var = some old) (hi : lookupA st.idxs var = some oldIdx)
    (hlen : oldIdx.length = old.length) (hlen2 : idx.length = lens.length) :
    (old.length ≠ lens.length → ∃ e, promoteVar st var lens idx = Except.error e) ∧
    (old.length = lens.length → oldIdx ≠ idx →
      ∃ e, promoteVar st var lens idx = Except.error e) ∧
    (old.length = lens.length → oldIdx = idx →
      promoteVar st var lens idx
        = Except.ok ⟨updateA st.dims var (List.zipWith max old lens), st.idxs⟩) := by
  refine ⟨?_, ?_, ?_⟩
  · intro hrank
    exact ⟨"Conflicting promotion dimensions",
      by simp only [promoteVar, hd, hi, if_pos hrank]⟩
  · intro hrank hidx
    obtain ⟨e, he⟩ := mergeDims_index_conflict old oldIdx lens idx hlen hrank
      (by rw [hlen2]) hidx
    exact ⟨e, by simp only [promoteVar, hd, hi, if_neg (not_not_intro hrank), he]⟩
  · intro hrank hidx
    subst hidx
    have hmerge := mergeDims_eq old oldIdx lens hlen hrank
    simp only [promoteVar, hd, hi, if_neg (not_not_intro hrank), hmerge]

/-- Witness for the promotion theorem: sizes `[5, 7]` and `[6, 3]` over
indices `[i, j]` merge to the element-wise maximum `[6, 7]`. -/
theorem promotion_conflict_spec_witness :
    promoteVar ⟨[("x", [5, 7])], [("x", ["i", "j"])]⟩ "x" [6, 3] ["i", "j"]
      = Except.ok ⟨[("x", [6, 7])], [("x", ["i", "j"])]⟩ := by
  have h := (promotion_conflict_spec ⟨[("x", [5, 7])], [("x", ["i", "j"])]⟩ "x"
      [5, 7] ["i", "j"] [6, 3] ["i", "j"] rfl rfl rfl rfl).2.2 rfl rfl
  rw [h]
  rfl

/-! ## Section hoist: the collapse scope check -/

/-- `section_hoist`: extraction of the enclosing scopes for `collapse(n)`.
When `len(scopes) <= collapse` the source builds
`RuntimeError('Not enough enclosing scopes for collapse(n)')` but never
raises it (the `raise` keyword is missing), then proceeds with the last
`collapse + 1` scopes -- all of them when fewer are available. -/
def section_hoist_scopes (scopes : List ℕ) (collapse : ℕ) :
    Except String (List ℕ) :=
  let _unraised : Option String :=
    if scopes.length ≤ collapse then
      some "Not enough enclosing scopes for collapse"
    else none
  Except.ok (scopes.drop (scopes.length - (collapse + 1)))

/-- C10: with `collapse(n)` at least the number of enclosing scopes, the
constructed RuntimeError is discarded, no error is raised, and the driver
proceeds with all available enclosing scopes. -/
theorem section_hoist_scopes_no_raise (scopes : List ℕ) (collapse : ℕ)
    (h : scopes.length ≤ collapse) :
    section_hoist_scopes scopes collapse = Except.ok scopes ∧
      ∀ e, section_hoist_scopes scopes collapse ≠ Except.error e := by
  have hdrop : scopes.length - (collapse + 1) = 0 := by omega
  constructor
  · simp [section_hoist_scopes, hdrop]
  · intro e hcontra
    simp [section_hoist_scopes, hdrop] at hcontra

/-- Witness for the no-raise theorem: two enclosing scopes, `collapse(2)`. -/
theorem section_hoist_scopes_no_raise_witness :
    section_hoist_scopes [1, 2] 2 = Except.ok [1, 2] :=
  (section_hoist_scopes_no_raise [1, 2] 2 (by simp)).1

end LoopTransform
